import Mathlib

/-!
# Verification of the sonification rendering engine

Shallow embedding of `src/frontend/app/utils/sonification.ts` (the
sonification rendering engine) and proofs of the specified properties.

Modelling conventions:
* JS `number` (IEEE double) is embedded as `ℝ`; every double is a real
  number, and the source's arithmetic is modelled exactly over `ℝ`.
  Purely discrete quantities (the `speed` option, sample counts, timing
  arithmetic) are embedded over `ℚ`/`ℤ`/`ℕ` so that they stay computable:
  every IEEE double is a rational, and the timing computations of the
  source involve only rational operations.
* `Float32Array` buffers are embedded as `List ℝ`.
* Arrays that may be absent (`values?: T[]`) are `Option (List T)`.
* A JS out-of-range array read yields `undefined`.  On boolean and tag
  reads the source only uses its falsiness / string comparison, so
  `jsGetBoolD` and `jsGetTagD` default; but an out-of-range *numeric*
  read feeds arithmetic and produces NaN.  `ℝ` has no NaN, so the file
  carries two models of the synthesis arithmetic: a finite real-valued
  one (`jsGetD` below reads 0 out of range), and a NaN-faithful one
  over `JSNum` (`jsRead`, `renderSonificationJS`), with bridging
  lemmas proving the two agree whenever every read is in range — which
  is the case exactly when the flux array is non-empty.  Statements
  about the NaN error path (the empty series in the melodic modes) are
  made against the `JSNum` model.
-/

namespace Sonification

/-- `clamp` from the source: `Math.max(min, Math.min(max, value))`. -/
def clamp {α : Type*} [LinearOrder α] (value lo hi : α) : α :=
  max lo (min hi value)

/-- `SAMPLE_RATE = 16000`. -/
def SAMPLE_RATE : ℕ := 16000

/-- `BASE_DURATION = 0.02` (seconds per data point at speed 1). -/
def BASE_DURATION : ℚ := 0.02

/-- `MIN_DURATION = 0.005` (minimum seconds per data point). -/
def MIN_DURATION : ℚ := 0.005

/-- The odd/even tag of a data point: `'odd' | 'even' | null` in the
source (`OddEvenTag`); `null` is embedded as `neither`. -/
inductive OddEvenTag where
  | odd
  | even
  | neither
deriving DecidableEq, Repr

/-- `TransitEvent` from `types`: integer indices, real measurements.
(`start_time`/`end_time` are never read by the renderer.) -/
structure TransitEvent where
  index : ℤ
  start_index : ℤ
  end_index : ℤ
  depth : ℝ
  snr : ℝ

/-- `SonificationSeries`: the fields read by the rendering engine.
(`time`, `phase`, `phase_folded_*`, `sample_interval`, `secondary_sigma`
are never read by the renderer and are omitted.)  The annotation arrays
may be absent upstream, hence `Option`. -/
structure SonificationSeries where
  flux : List ℝ
  in_transit : Option (List Bool)
  odd_even : Option (List OddEvenTag)
  secondary_mask : Option (List Bool)
  events : List TransitEvent

/-- `SonificationMode = 'transit_ping' | 'flux_pitch' | 'odd_even'`. -/
inductive SonificationMode where
  | transit_ping
  | flux_pitch
  | odd_even
deriving DecidableEq, Repr

/-- `SonificationOptions`. `speed` is discrete-arithmetic only in the
source, embedded as `ℚ`; `volume` is embedded as `ℝ`. -/
structure SonificationOptions where
  mode : SonificationMode
  speed : ℚ
  quantize : Bool
  stereo : Bool
  volume : ℝ

/-- `RenderedAudio`. -/
structure RenderedAudio where
  sampleRate : ℕ
  left : List ℝ
  right : Option (List ℝ)
  duration : ℝ

/-- `resolveBoolArray(values, length)` from the source, line for line:
absent or empty → `length` copies of `false`; equal length → a copy;
longer → first `length` entries; shorter → pad the tail with `false`. -/
def resolveBoolArray (values : Option (List Bool)) (length : ℕ) : List Bool :=
  match values with
  | none => List.replicate length false
  | some vs =>
    if vs.length = 0 then List.replicate length false
    else if vs.length = length then vs
    else if length < vs.length then vs.take length
    else vs ++ List.replicate (length - vs.length) false

/-- `resolveOddEven(values, length)`: start from `length` copies of
`neither` (null) and, for each `i < min length values.length`, write
`values[i]` when it is `odd` or `even` (a `neither` entry leaves the
prefilled `neither` in place).  The loop writes index `i` at iteration
`i` and nothing else, so it is embedded as a map over the index range. -/
def resolveOddEven (values : Option (List OddEvenTag)) (length : ℕ) : List OddEvenTag :=
  match values with
  | none => List.replicate length OddEvenTag.neither
  | some vs =>
    (List.range length).map fun i =>
      if i < min length vs.length then
        let value := vs.getD i OddEvenTag.neither
        if value = OddEvenTag.odd ∨ value = OddEvenTag.even then value
        else OddEvenTag.neither
      else OddEvenTag.neither

/-- JS `Math.round` on the (rational) values the source feeds it:
round half away from zero is round half up for the nonnegative inputs
involved, i.e. `⌊x + 1/2⌋`. -/
def jsRound (x : ℚ) : ℤ := ⌊x + 1 / 2⌋

/-- `segmentSamples(length, speed)`: per-point sample count and total
sample count.  `duration = max(BASE_DURATION / clamp(speed,0.25,4),
MIN_DURATION)`, `perPoint = max(1, round(duration * SAMPLE_RATE))`,
`total = max(1, perPoint * max(1, length))`. -/
def segmentSamples (length : ℕ) (speed : ℚ) : ℕ × ℕ :=
  let safeSpeed := clamp speed 0.25 4
  let duration := max (BASE_DURATION / safeSpeed) MIN_DURATION
  let perPoint := (max 1 (jsRound (duration * (SAMPLE_RATE : ℚ)))).toNat
  let total := max 1 (perPoint * max 1 length)
  (perPoint, total)

/-- `Math.min(series.flux.length - 1, Math.floor(sample / perPoint))`:
the source data index feeding output sample `sample`.  Over `ℤ` because
it is `-1` when the flux array is empty. -/
def dataIndex (N perPoint sample : ℕ) : ℤ :=
  min ((N : ℤ) - 1) ((sample : ℤ) / (perPoint : ℤ))

/-- Read a real array at a JS index in the finite real-valued model
(default 0 when out of range).  This is the projection of the faithful
`jsRead` below: the two agree whenever `0 ≤ i < l.length`
(`jsRead_fin`), and all melodic reads are in range exactly when the
flux array is non-empty; the out-of-range case (NaN in JS) is treated
by the `JSNum` model. -/
def jsGetD (l : List ℝ) (i : ℤ) : ℝ :=
  if 0 ≤ i then l.getD i.toNat 0 else 0

/-- Read a boolean array at a possibly out-of-range JS index
(`undefined` is falsy). -/
def jsGetBoolD (l : List Bool) (i : ℤ) : Bool :=
  if 0 ≤ i then l.getD i.toNat false else false

/-- Read an odd/even tag array at a possibly out-of-range JS index
(`undefined` is neither `'odd'` nor `'even'`). -/
def jsGetTagD (l : List OddEvenTag) (i : ℤ) : OddEvenTag :=
  if 0 ≤ i then l.getD i.toNat OddEvenTag.neither else OddEvenTag.neither

/-- `PENTATONIC_STEPS = [0, 2, 4, 7, 9]` (as doubles in the source). -/
def PENTATONIC_STEPS : List ℝ := [0, 2, 4, 7, 9]

/-- One step of the `reduce` in `quantizeFrequency`:
keep `current` when it is strictly closer to `withinOctave`. -/
noncomputable def pickStep (withinOctave prev current : ℝ) : ℝ :=
  if |current - withinOctave| < |prev - withinOctave| then current else prev

/-- `PENTATONIC_STEPS.reduce(...)`: the accumulator is seeded with the
first element `0` and folded over the remaining steps. -/
noncomputable def nearestStep (withinOctave : ℝ) : ℝ :=
  List.foldl (pickStep withinOctave) 0 [2, 4, 7, 9]

/-- `quantizeFrequency(freq)`: snap a frequency to the pentatonic pitch
classes relative to A440; non-positive input returns the fixed fallback
220. -/
noncomputable def quantizeFrequency (freq : ℝ) : ℝ :=
  if freq ≤ 0 then 220
  else
    let midi := 69 + 12 * Real.logb 2 (freq / 440)
    let octave : ℤ := ⌊midi / 12⌋
    let withinOctave := midi - (octave : ℝ) * 12
    let nearest := nearestStep withinOctave
    440 * (2 : ℝ) ^ (((octave : ℝ) * 12 + nearest - 69) / 12)

/-- Mean of a flux array (`reduce((acc,v) => acc+v, 0) / length`). -/
noncomputable def fluxMean (flux : List ℝ) : ℝ :=
  flux.sum / (flux.length : ℝ)

/-- Population variance of a flux array. -/
noncomputable def fluxVariance (flux : List ℝ) : ℝ :=
  ((flux.map fun value => (value - fluxMean flux) ^ 2).sum) / (flux.length : ℝ)

/-- `const std = Math.sqrt(variance) || 1e-6`: the JS `||` substitutes
`1e-6` exactly when `Math.sqrt(variance)` is falsy, i.e. equals `0`. -/
noncomputable def fluxStd (flux : List ℝ) : ℝ :=
  if Real.sqrt (fluxVariance flux) = 0 then 1e-6 else Real.sqrt (fluxVariance flux)

/-- `frequencySeries(flux, quantize)`: z-score each flux value (clamped
to `[-3,3]`), map linearly onto `[220, 880]`, optionally quantize. -/
noncomputable def frequencySeries (flux : List ℝ) (quantize : Bool) : List ℝ :=
  if flux.length = 0 then []
  else
    flux.map fun value =>
      let z := clamp ((value - fluxMean flux) / fluxStd flux) (-3) 3
      let freq := 220 + (z + 3) / 6 * (880 - 220)
      if quantize then quantizeFrequency freq else freq

/-- `amplitudeSeries(inTransit, secondary)`: base 0.18, `+0.15` in
transit, `+0.08` on secondary, clamped to `[0.08, 0.65]`. -/
noncomputable def amplitudeSeries (inTransit secondary : List Bool) : List ℝ :=
  (List.range inTransit.length).map fun i =>
    clamp (0.18 + (if inTransit.getD i false then (0.15 : ℝ) else 0)
        + (if secondary.getD i false then (0.08 : ℝ) else 0)) 0.08 0.65

/-- Peak absolute amplitude of a buffer (`max` scan starting at 0). -/
def peakVal (l : List ℝ) : ℝ :=
  l.foldl (fun m x => max m |x|) 0

/-- The `if (max > 0) buffer[i] /= max * 1.05` normalization pass, with
the peak `p` passed explicitly (for stereo, the joint peak). -/
noncomputable def normalizeWith (p : ℝ) (l : List ℝ) : List ℝ :=
  if 0 < p then l.map fun x => x / (p * 1.05) else l

/-! ## `renderTransitPing` (source lines 91–143) -/

/-- `(2π·440)/SAMPLE_RATE`. -/
noncomputable def baseIncrement : ℝ := 2 * Real.pi * 440 / (SAMPLE_RATE : ℝ)

/-- `(2π·660)/SAMPLE_RATE`. -/
noncomputable def secondaryIncrement : ℝ := 2 * Real.pi * 660 / (SAMPLE_RATE : ℝ)

/-- `(2π·880)/SAMPLE_RATE`. -/
noncomputable def pingIncrement : ℝ := 2 * Real.pi * 880 / (SAMPLE_RATE : ℝ)

/-- Is the secondary mask set at the data index feeding sample `k`? -/
def secondaryAt (secondary : List Bool) (N perPoint k : ℕ) : Bool :=
  jsGetBoolD secondary (dataIndex N perPoint k)

/-- The secondary phase accumulator after sample `s`: it advances by
`secondaryIncrement` exactly on the samples (up to and including `s`)
whose data index has the secondary mask set. -/
def secondaryCount (secondary : List Bool) (N perPoint s : ℕ) : ℕ :=
  ((List.range (s + 1)).filter (secondaryAt secondary N perPoint)).length

/-- Sample `s` of the carrier pass of ping mode: a 440 Hz tone at
amplitude 0.12, plus a continuous 660 Hz tone at 0.08 where the
secondary mask is set. -/
noncomputable def pingBaseSample (secondary : List Bool) (N perPoint : ℕ) (s : ℕ) : ℝ :=
  Real.sin (baseIncrement * (s : ℝ)) * 0.12
    + if secondaryAt secondary N perPoint s then
        Real.sin (secondaryIncrement * (secondaryCount secondary N perPoint s : ℝ)) * 0.08
      else 0

/-- `pingSamples = max(floor((SAMPLE_RATE * 0.1) / clamp(speed,0.25,4)), 1)`. -/
def pingSamplesCount (speed : ℚ) : ℕ :=
  (max (⌊((SAMPLE_RATE : ℚ) * 0.1) / clamp speed 0.25 4⌋) 1).toNat

/-- `startSample = min(total - 1, max(0, event.start_index * perPoint))`. -/
def startSample (total perPoint : ℕ) (event : TransitEvent) : ℤ :=
  min ((total : ℤ) - 1) (max 0 (event.start_index * (perPoint : ℤ)))

/-- Burst amplitude of an event:
`clamp(snr > 0 ? snr / 5 : depth * 40, 0.2, 0.8)` with
`depth = |event.depth|`, `snr = |event.snr|`. -/
noncomputable def pingAmplitude (event : TransitEvent) : ℝ :=
  clamp (if 0 < |event.snr| then |event.snr| / 5 else |event.depth| * 40) 0.2 0.8

/-- Burst value at offset `offset` into an event's ping: the ping phase
has accumulated `offset + 1` increments, with exponential envelope. -/
noncomputable def pingValue (event : TransitEvent) (pingSamples offset : ℕ) : ℝ :=
  Real.sin (pingIncrement * ((offset : ℝ) + 1)) * pingAmplitude event
    * Real.exp (-3 * ((offset : ℝ) / (pingSamples : ℝ)))

/-- The offsets the burst loop actually writes: `offset < pingSamples`,
stopping (`break`) as soon as `startSample + offset` reaches `total`. -/
def burstOffsets (total : ℕ) (start : ℤ) (pingSamples : ℕ) : List ℕ :=
  (List.range pingSamples).takeWhile fun offset => start + (offset : ℤ) < (total : ℤ)

/-- The buffer indices an event's burst loop writes. -/
def pingWriteIndices (total perPoint : ℕ) (speed : ℚ) (event : TransitEvent) : List ℤ :=
  (burstOffsets total (startSample total perPoint event) (pingSamplesCount speed)).map
    fun (offset : ℕ) => startSample total perPoint event + (offset : ℤ)

/-- `buffer[idx] += v` at a JS integer index (in-range by construction,
see `pingWriteIndices` bounds; an out-of-range index would leave the
buffer unchanged). -/
def jsAddAt (buf : List ℝ) (idx : ℤ) (v : ℝ) : List ℝ :=
  if 0 ≤ idx then buf.set idx.toNat (buf.getD idx.toNat 0 + v) else buf

/-- Overlay one event's decaying burst onto the buffer. -/
noncomputable def applyPing (total perPoint : ℕ) (speed : ℚ) (buf : List ℝ)
    (event : TransitEvent) : List ℝ :=
  (burstOffsets total (startSample total perPoint event) (pingSamplesCount speed)).foldl
    (fun b (offset : ℕ) =>
      jsAddAt b (startSample total perPoint event + (offset : ℤ))
        (pingValue event (pingSamplesCount speed) offset))
    buf

/-- `renderTransitPing`: carrier pass, event bursts, peak normalization. -/
noncomputable def renderTransitPing (series : SonificationSeries) (perPoint total : ℕ)
    (speed : ℚ) (secondary : List Bool) : List ℝ :=
  let base := (List.range total).map (pingBaseSample secondary series.flux.length perPoint)
  let withPings := series.events.foldl (applyPing total perPoint speed) base
  normalizeWith (peakVal withPings) withPings

/-! ## `renderFluxPitch` and `renderOddEven` (source lines 145–217) -/

/-- The running oscillator phase after emitting sample `s`: the source
adds `2π·freq/SAMPLE_RATE` (for the frequency of the sample's data
index) before emitting each sample, so the phase at sample `s` is the
sum of the first `s + 1` increments. -/
noncomputable def oscPhase (freqs : List ℝ) (N perPoint : ℕ) (s : ℕ) : ℝ :=
  ∑ k in Finset.range (s + 1),
    2 * Real.pi * jsGetD freqs (dataIndex N perPoint k) / (SAMPLE_RATE : ℝ)

/-- Sample `s` of the melodic oscillator: `sin(phase) * amplitude`. -/
noncomputable def melodySample (freqs amplitudes : List ℝ) (N perPoint : ℕ) (s : ℕ) : ℝ :=
  Real.sin (oscPhase freqs N perPoint s) * jsGetD amplitudes (dataIndex N perPoint s)

/-- `renderFluxPitch`: the melodic buffer, peak-normalized. -/
noncomputable def renderFluxPitch (series : SonificationSeries)
    (freqs amplitudes : List ℝ) (perPoint total : ℕ) : List ℝ :=
  let buffer := (List.range total).map (melodySample freqs amplitudes series.flux.length perPoint)
  normalizeWith (peakVal buffer) buffer

/-- The pan position of a tag: `0.5` default, `0.25` for odd, `0.75`
for even (pan is the right-channel share). -/
def panOf (tag : OddEvenTag) : ℝ :=
  match tag with
  | OddEvenTag.odd => 0.25
  | OddEvenTag.even => 0.75
  | OddEvenTag.neither => 0.5

/-- The odd/even tag feeding output sample `s`. -/
def tagAt (oddEven : List OddEvenTag) (N perPoint s : ℕ) : OddEvenTag :=
  jsGetTagD oddEven (dataIndex N perPoint s)

/-- Left channel, sample `s`, of the stereo split before normalization:
`value * (1 - pan)`. -/
noncomputable def oddEvenLeftRaw (freqs amplitudes : List ℝ) (oddEven : List OddEvenTag)
    (N perPoint : ℕ) (s : ℕ) : ℝ :=
  melodySample freqs amplitudes N perPoint s * (1 - panOf (tagAt oddEven N perPoint s))

/-- Right channel, sample `s`, of the stereo split before normalization:
`value * pan`. -/
noncomputable def oddEvenRightRaw (freqs amplitudes : List ℝ) (oddEven : List OddEvenTag)
    (N perPoint : ℕ) (s : ℕ) : ℝ :=
  melodySample freqs amplitudes N perPoint s * panOf (tagAt oddEven N perPoint s)

/-- `renderOddEven`: with `stereo`, pan each sample between the two
channels by its tag and normalize both channels by their joint peak;
without `stereo`, exactly `renderFluxPitch` (single channel). -/
noncomputable def renderOddEven (series : SonificationSeries)
    (freqs amplitudes : List ℝ) (oddEven : List OddEvenTag)
    (perPoint total : ℕ) (stereo : Bool) : List ℝ × Option (List ℝ) :=
  if stereo then
    let N := series.flux.length
    let left := (List.range total).map (oddEvenLeftRaw freqs amplitudes oddEven N perPoint)
    let right := (List.range total).map (oddEvenRightRaw freqs amplitudes oddEven N perPoint)
    let joint := max (peakVal left) (peakVal right)
    (normalizeWith joint left, some (normalizeWith joint right))
  else
    (renderFluxPitch series freqs amplitudes perPoint total, none)

/-! ## `renderSonification` (source lines 219–271) -/

/-- `renderSonification(series, options)`: resolve the annotation
arrays, derive the timing, dispatch on the mode, apply the volume gain,
and package the result. -/
noncomputable def renderSonification (series : SonificationSeries)
    (options : SonificationOptions) : RenderedAudio :=
  let N := series.flux.length
  let inTransit := resolveBoolArray series.in_transit N
  let secondary := resolveBoolArray series.secondary_mask N
  let oddEven := resolveOddEven series.odd_even N
  let perPoint := (segmentSamples N options.speed).1
  let total := (segmentSamples N options.speed).2
  let rendered : List ℝ × Option (List ℝ) :=
    match options.mode with
    | SonificationMode.transit_ping =>
      (renderTransitPing series perPoint total options.speed secondary, none)
    | SonificationMode.flux_pitch =>
      (renderFluxPitch series (frequencySeries series.flux options.quantize)
        (amplitudeSeries inTransit secondary) perPoint total, none)
    | SonificationMode.odd_even =>
      renderOddEven series (frequencySeries series.flux options.quantize)
        (amplitudeSeries inTransit secondary) oddEven perPoint total options.stereo
  let volume := clamp options.volume 0 1
  let left := rendered.1.map fun x => x * volume
  let right := rendered.2.map fun r => r.map fun x => x * volume
  { sampleRate := SAMPLE_RATE
    left := left
    right := right
    duration := (left.length : ℝ) / (SAMPLE_RATE : ℝ) }

/-! ## NaN-faithful synthesis semantics

The melodic synthesizers read `freqs[dataIndex]` and
`amplitudes[dataIndex]`.  When the flux array is empty, `dataIndex` is
`-1`, the read yields `undefined`, and the first arithmetic operation
turns it into NaN, which then poisons the whole buffer: `Math.max`
with a NaN argument is NaN, so the `max > 0` normalization test is
false, the pass is skipped, and the NaN samples survive multiplication
by the volume into the output.  `ℝ` has no NaN, so this error path
gets an explicit value type here; the real-valued model above is
proved to agree with this one whenever every read is in range
(`oscPhaseJS_fin` and the bridging lemmas below), which is exactly the
non-empty-series case. -/

/-- A JS double in the synthesis arithmetic: a finite real or NaN. -/
inductive JSNum where
  | fin (x : ℝ)
  | nan

/-- JS `+`: NaN-absorbing. -/
def jsAdd : JSNum → JSNum → JSNum
  | JSNum.fin a, JSNum.fin b => JSNum.fin (a + b)
  | _, _ => JSNum.nan

/-- JS `*`: NaN-absorbing (no infinities arise in these paths). -/
def jsMul : JSNum → JSNum → JSNum
  | JSNum.fin a, JSNum.fin b => JSNum.fin (a * b)
  | _, _ => JSNum.nan

/-- JS `/`: NaN-absorbing.  Every finite divisor in the paths below is
nonzero (`SAMPLE_RATE` and `peak * 1.05` under `peak > 0`), so the
finite case never divides by zero. -/
noncomputable def jsDiv : JSNum → JSNum → JSNum
  | JSNum.fin a, JSNum.fin b => JSNum.fin (a / b)
  | _, _ => JSNum.nan

/-- `Math.sin`: NaN in, NaN out. -/
noncomputable def jsSin : JSNum → JSNum
  | JSNum.fin x => JSNum.fin (Real.sin x)
  | JSNum.nan => JSNum.nan

/-- `Math.abs`: NaN in, NaN out. -/
noncomputable def jsAbs : JSNum → JSNum
  | JSNum.fin x => JSNum.fin |x|
  | JSNum.nan => JSNum.nan

/-- `Math.max`: NaN if either argument is NaN. -/
noncomputable def jsMax : JSNum → JSNum → JSNum
  | JSNum.fin a, JSNum.fin b => JSNum.fin (max a b)
  | _, _ => JSNum.nan

/-- A `Float32Array` read with JS semantics: in range gives the
element, out of range gives `undefined`, which behaves as NaN in the
arithmetic it feeds. -/
def jsRead (l : List ℝ) (i : ℤ) : JSNum :=
  if 0 ≤ i ∧ i < (l.length : ℤ) then JSNum.fin (l.getD i.toNat 0) else JSNum.nan

/-- `|v| ≤ c` under JS comparison semantics: every comparison with NaN
is false, so no bound whatsoever holds at a NaN sample. -/
def jsAbsLe (v : JSNum) (c : ℝ) : Prop :=
  match v with
  | JSNum.fin x => |x| ≤ c
  | JSNum.nan => False

/-- The running melodic phase, NaN-aware: the source's
`phase += 2π·freq/SAMPLE_RATE` accumulation with the frequency read
under JS semantics. -/
noncomputable def oscPhaseJS (freqs : List ℝ) (N perPoint : ℕ) (s : ℕ) : JSNum :=
  (List.range (s + 1)).foldl
    (fun acc k =>
      jsAdd acc (jsDiv (jsMul (JSNum.fin (2 * Real.pi))
        (jsRead freqs (dataIndex N perPoint k))) (JSNum.fin (SAMPLE_RATE : ℝ))))
    (JSNum.fin 0)

/-- `sin(phase) * amplitude` with JS semantics. -/
noncomputable def melodySampleJS (freqs amplitudes : List ℝ) (N perPoint : ℕ)
    (s : ℕ) : JSNum :=
  jsMul (jsSin (oscPhaseJS freqs N perPoint s))
    (jsRead amplitudes (dataIndex N perPoint s))

/-- The peak scan `max = Math.max(max, Math.abs(buffer[i]))` with JS
semantics: one NaN sample makes the peak NaN. -/
noncomputable def peakValJS (l : List JSNum) : JSNum :=
  l.foldl (fun m v => jsMax m (jsAbs v)) (JSNum.fin 0)

/-- The `if (max > 0) divide by max·1.05` pass with JS semantics:
`NaN > 0` is false, so a NaN peak skips the pass. -/
noncomputable def normalizeWithJS (p : JSNum) (l : List JSNum) : List JSNum :=
  match p with
  | JSNum.fin x =>
    if 0 < x then l.map (fun v => jsDiv v (jsMul (JSNum.fin x) (JSNum.fin 1.05))) else l
  | JSNum.nan => l

/-- `renderFluxPitch` with JS semantics. -/
noncomputable def renderFluxPitchJS (series : SonificationSeries)
    (freqs amplitudes : List ℝ) (perPoint total : ℕ) : List JSNum :=
  let buffer := (List.range total).map
    (melodySampleJS freqs amplitudes series.flux.length perPoint)
  normalizeWithJS (peakValJS buffer) buffer

/-- `renderOddEven` with JS semantics (the joint stereo peak is the
`jsMax` of the two channel peaks, which agrees with the source's single
interleaved scan: `Math.max` is associative and commutative on finite
values and NaN-absorbing otherwise). -/
noncomputable def renderOddEvenJS (series : SonificationSeries)
    (freqs amplitudes : List ℝ) (oddEven : List OddEvenTag)
    (perPoint total : ℕ) (stereo : Bool) : List JSNum × Option (List JSNum) :=
  if stereo then
    let N := series.flux.length
    let left := (List.range total).map fun s =>
      jsMul (melodySampleJS freqs amplitudes N perPoint s)
        (JSNum.fin (1 - panOf (tagAt oddEven N perPoint s)))
    let right := (List.range total).map fun s =>
      jsMul (melodySampleJS freqs amplitudes N perPoint s)
        (JSNum.fin (panOf (tagAt oddEven N perPoint s)))
    let joint := jsMax (peakValJS left) (peakValJS right)
    (normalizeWithJS joint left, some (normalizeWithJS joint right))
  else
    (renderFluxPitchJS series freqs amplitudes perPoint total, none)

/-- `RenderedAudio` with JS-semantics sample values. -/
structure RenderedAudioJS where
  sampleRate : ℕ
  left : List JSNum
  right : Option (List JSNum)
  duration : ℝ

/-- `renderSonification` with JS semantics.  The ping branch performs
no numeric array reads (its only annotation read is the boolean
secondary mask, where `undefined` is merely falsy), so its JS
semantics is the finite model embedded by `JSNum.fin`. -/
noncomputable def renderSonificationJS (series : SonificationSeries)
    (options : SonificationOptions) : RenderedAudioJS :=
  let N := series.flux.length
  let inTransit := resolveBoolArray series.in_transit N
  let secondary := resolveBoolArray series.secondary_mask N
  let oddEven := resolveOddEven series.odd_even N
  let perPoint := (segmentSamples N options.speed).1
  let total := (segmentSamples N options.speed).2
  let rendered : List JSNum × Option (List JSNum) :=
    match options.mode with
    | SonificationMode.transit_ping =>
      ((renderTransitPing series perPoint total options.speed secondary).map JSNum.fin,
        none)
    | SonificationMode.flux_pitch =>
      (renderFluxPitchJS series (frequencySeries series.flux options.quantize)
        (amplitudeSeries inTransit secondary) perPoint total, none)
    | SonificationMode.odd_even =>
      renderOddEvenJS series (frequencySeries series.flux options.quantize)
        (amplitudeSeries inTransit secondary) oddEven perPoint total options.stereo
  let volume := clamp options.volume 0 1
  let left := rendered.1.map fun v => jsMul v (JSNum.fin volume)
  let right := rendered.2.map fun r => r.map fun v => jsMul v (JSNum.fin volume)
  { sampleRate := SAMPLE_RATE
    left := left
    right := right
    duration := (left.length : ℝ) / (SAMPLE_RATE : ℝ) }

/-! ## Series Normalizer -/

/-- Closed form of `resolveBoolArray`: truncate to `N`, then pad to `N`
with the default (`getD [] ` turns an absent array into the empty one). -/
theorem resolveBoolArray_spec (ov : Option (List Bool)) (N : ℕ) :
    resolveBoolArray ov N
      = (ov.getD []).take N ++ List.replicate (N - (ov.getD []).length) false := by
  match ov with
  | none => simp [resolveBoolArray]
  | some vs =>
    simp only [resolveBoolArray, Option.getD_some]
    split
    · next h => simp_all [List.eq_nil_of_length_eq_zero h]
    · split
      · next h2 => simp [h2]
      · split
        · next h3 => simp [List.take_of_length_le, Nat.sub_eq_zero_of_le, le_of_lt h3]
        · next h1 h2 h3 =>
          have : vs.length ≤ N := by omega
          rw [List.take_of_length_le this]

/-- Closed form of `resolveOddEven`: truncate to `N`, then pad to `N`
with `neither`; the copy step is the identity because every stored tag
is `odd`, `even` or `neither`. -/
theorem resolveOddEven_spec (ov : Option (List OddEvenTag)) (N : ℕ) :
    resolveOddEven ov N
      = (ov.getD []).take N
        ++ List.replicate (N - (ov.getD []).length) OddEvenTag.neither := by
  match ov with
  | none => simp [resolveOddEven]
  | some vs =>
    simp only [resolveOddEven, Option.getD_some]
    apply List.ext_getElem
    · simp; omega
    · intro i h1 h2
      simp only [List.getElem_map, List.getElem_range]
      by_cases hi : i < min N vs.length
      · have hiv : i < vs.length := by omega
        rw [if_pos hi]
        have hgd : vs.getD i OddEvenTag.neither = vs[i] := List.getD_eq_getElem vs _ hiv
        rw [List.getElem_append_left (by simp; omega)]
        simp only [List.getElem_take]
        rw [hgd]
        rcases h : vs[i] with _ | _ | _ <;> simp
      · rw [if_neg hi]
        rw [List.getElem_append_right (by simp; omega)]
        simp

theorem resolveBoolArray_length (ov : Option (List Bool)) (N : ℕ) :
    (resolveBoolArray ov N).length = N := by
  rw [resolveBoolArray_spec]; simp; omega

theorem resolveOddEven_length (ov : Option (List OddEvenTag)) (N : ℕ) :
    (resolveOddEven ov N).length = N := by
  rw [resolveOddEven_spec]; simp; omega

/-! ## Buffer lengths -/

theorem normalizeWith_length (p : ℝ) (l : List ℝ) :
    (normalizeWith p l).length = l.length := by
  unfold normalizeWith; split <;> simp

theorem jsAddAt_length (buf : List ℝ) (idx : ℤ) (v : ℝ) :
    (jsAddAt buf idx v).length = buf.length := by
  unfold jsAddAt; split <;> simp

theorem applyPing_length (total perPoint : ℕ) (speed : ℚ) (buf : List ℝ)
    (event : TransitEvent) :
    (applyPing total perPoint speed buf event).length = buf.length := by
  unfold applyPing
  generalize burstOffsets total (startSample total perPoint event) (pingSamplesCount speed) = offs
  induction offs generalizing buf with
  | nil => rfl
  | cons o rest ih => rw [List.foldl_cons, ih, jsAddAt_length]

theorem foldl_applyPing_length (total perPoint : ℕ) (speed : ℚ)
    (evs : List TransitEvent) :
    ∀ buf : List ℝ, (evs.foldl (applyPing total perPoint speed) buf).length = buf.length := by
  induction evs with
  | nil => intro buf; rfl
  | cons e rest ih => intro buf; rw [List.foldl_cons, ih, applyPing_length]

theorem renderTransitPing_length (series : SonificationSeries) (perPoint total : ℕ)
    (speed : ℚ) (secondary : List Bool) :
    (renderTransitPing series perPoint total speed secondary).length = total := by
  unfold renderTransitPing
  rw [normalizeWith_length, foldl_applyPing_length]
  simp

theorem renderFluxPitch_length (series : SonificationSeries)
    (freqs amplitudes : List ℝ) (perPoint total : ℕ) :
    (renderFluxPitch series freqs amplitudes perPoint total).length = total := by
  unfold renderFluxPitch
  rw [normalizeWith_length]; simp

theorem renderOddEven_length (series : SonificationSeries)
    (freqs amplitudes : List ℝ) (oddEven : List OddEvenTag)
    (perPoint total : ℕ) (stereo : Bool) :
    (renderOddEven series freqs amplitudes oddEven perPoint total stereo).1.length = total
    ∧ ∀ r, (renderOddEven series freqs amplitudes oddEven perPoint total stereo).2 = some r
        → r.length = total := by
  cases stereo with
  | true =>
    refine ⟨by simp [renderOddEven, normalizeWith_length], ?_⟩
    intro r hr
    simp only [renderOddEven, if_true] at hr
    rw [Option.some_inj] at hr
    rw [← hr, normalizeWith_length]
    simp
  | false =>
    exact ⟨by simp [renderOddEven, renderFluxPitch_length], by simp [renderOddEven]⟩

/-- Every rendered left channel has exactly `total` samples. -/
theorem renderSonification_left_length (series : SonificationSeries)
    (opts : SonificationOptions) :
    (renderSonification series opts).left.length
      = (segmentSamples series.flux.length opts.speed).2 := by
  rcases opts with ⟨mode, sp, q, st, vol⟩
  cases mode with
  | transit_ping => simp [renderSonification, renderTransitPing_length]
  | flux_pitch => simp [renderSonification, renderFluxPitch_length]
  | odd_even =>
    cases st <;>
      simp [renderSonification, renderOddEven, renderFluxPitch_length, normalizeWith_length]

/-- Every rendered right channel (when present) has exactly `total`
samples. -/
theorem renderSonification_right_length (series : SonificationSeries)
    (opts : SonificationOptions) (r : List ℝ) :
    (renderSonification series opts).right = some r
      → r.length = (segmentSamples series.flux.length opts.speed).2 := by
  rcases opts with ⟨mode, sp, q, st, vol⟩
  intro hr
  cases mode with
  | transit_ping => simp [renderSonification] at hr
  | flux_pitch => simp [renderSonification] at hr
  | odd_even =>
    cases st with
    | true =>
      simp only [renderSonification, renderOddEven, if_true, Option.map_some',
        Option.some_inj] at hr
      rw [← hr]
      simp [normalizeWith_length]
    | false => simp [renderSonification, renderOddEven] at hr

/-- The rendered duration is always `total / SAMPLE_RATE`. -/
theorem renderSonification_duration (series : SonificationSeries)
    (opts : SonificationOptions) :
    (renderSonification series opts).duration
      = ((segmentSamples series.flux.length opts.speed).2 : ℝ) / (SAMPLE_RATE : ℝ) := by
  rcases opts with ⟨mode, sp, q, st, vol⟩
  cases mode with
  | transit_ping => simp [renderSonification, renderTransitPing_length]
  | flux_pitch => simp [renderSonification, renderFluxPitch_length]
  | odd_even =>
    cases st <;>
      simp [renderSonification, renderOddEven, renderFluxPitch_length, normalizeWith_length]

/-! ## Claim C6 -/

/-- C6: the Series Normalizer returns an array of exactly length `N`:
an absent input yields `N` copies of the default, a shorter input is
copied and tail-padded with the default, and a longer input is
truncated to its first `N` elements — for the boolean annotation
arrays (`resolveBoolArray`, default `false`) and for the odd/even tags
(`resolveOddEven`, default `neither`).  The `take`/`replicate` closed
form expresses all three cases at once. -/
theorem seriesNormalizer_policy (N : ℕ) (ob : Option (List Bool))
    (ot : Option (List OddEvenTag)) :
    (resolveBoolArray ob N).length = N
    ∧ resolveBoolArray ob N
        = (ob.getD []).take N ++ List.replicate (N - (ob.getD []).length) false
    ∧ (resolveOddEven ot N).length = N
    ∧ resolveOddEven ot N
        = (ot.getD []).take N
          ++ List.replicate (N - (ot.getD []).length) OddEvenTag.neither :=
  ⟨resolveBoolArray_length ob N, resolveBoolArray_spec ob N,
   resolveOddEven_length ot N, resolveOddEven_spec ot N⟩

/-! ## Claim C10 -/

/-- `total = max 1 (...) ≥ 1`. -/
theorem segmentSamples_total_pos (N : ℕ) (speed : ℚ) :
    1 ≤ (segmentSamples N speed).2 :=
  le_max_left 1 _

/-- C10: in ping mode, for every `TransitEvent` — whatever its
`start_index`, in range or not — the burst start sample is clamped into
`[0, total - 1]` and every buffer index the burst loop writes lies in
`[0, total)`. -/
theorem pingRenderer_writes_in_bounds (N : ℕ) (speed : ℚ) (event : TransitEvent) :
    0 ≤ startSample (segmentSamples N speed).2 (segmentSamples N speed).1 event
    ∧ startSample (segmentSamples N speed).2 (segmentSamples N speed).1 event
        ≤ ((segmentSamples N speed).2 : ℤ) - 1
    ∧ (pingWriteIndices (segmentSamples N speed).2 (segmentSamples N speed).1
        speed event).Forall
        (fun idx => 0 ≤ idx ∧ idx < ((segmentSamples N speed).2 : ℤ)) := by
  have htot : 1 ≤ (segmentSamples N speed).2 := segmentSamples_total_pos N speed
  have hstart : 0 ≤ startSample (segmentSamples N speed).2 (segmentSamples N speed).1 event := by
    unfold startSample
    apply le_min
    · have : (1 : ℤ) ≤ ((segmentSamples N speed).2 : ℤ) := by exact_mod_cast htot
      omega
    · exact le_max_left 0 _
  refine ⟨hstart, min_le_left _ _, ?_⟩
  rw [List.forall_iff_forall_mem]
  intro idx hidx
  unfold pingWriteIndices at hidx
  obtain ⟨offset, hoff, rfl⟩ := List.mem_map.mp hidx
  unfold burstOffsets at hoff
  have hp := List.mem_takeWhile_imp hoff
  simp only [decide_eq_true_eq] at hp
  exact ⟨by positivity, hp⟩

/-! ## Claim C8 -/

/-- `perPoint` at speed 1 is `round(0.02 · 16000) = 320`. -/
theorem segmentSamples_perPoint_speed1 (N : ℕ) :
    (segmentSamples N 1).1 = 320 := by
  unfold segmentSamples
  simp only [clamp, jsRound, max_def, min_def, BASE_DURATION, MIN_DURATION, SAMPLE_RATE]
  norm_num
  decide

/-- `perPoint` at speed 2 is `round(0.01 · 16000) = 160`. -/
theorem segmentSamples_perPoint_speed2 (N : ℕ) :
    (segmentSamples N 2).1 = 160 := by
  unfold segmentSamples
  simp only [clamp, jsRound, max_def, min_def, BASE_DURATION, MIN_DURATION, SAMPLE_RATE]
  norm_num
  decide

/-- The per-point sample count is at least
`MIN_DURATION · SAMPLE_RATE = 80` at every speed. -/
theorem segmentSamples_perPoint_ge (N : ℕ) (speed : ℚ) :
    80 ≤ (segmentSamples N speed).1 := by
  unfold segmentSamples
  simp only
  have hdur : MIN_DURATION * (SAMPLE_RATE : ℚ)
      ≤ max (BASE_DURATION / clamp speed 0.25 4) MIN_DURATION * (SAMPLE_RATE : ℚ) :=
    mul_le_mul_of_nonneg_right (le_max_right _ _) (by norm_num [SAMPLE_RATE])
  have h80 : (80 : ℚ) ≤ max (BASE_DURATION / clamp speed 0.25 4) MIN_DURATION
      * (SAMPLE_RATE : ℚ) := by
    calc (80 : ℚ) = MIN_DURATION * (SAMPLE_RATE : ℚ) := by
          norm_num [MIN_DURATION, SAMPLE_RATE]
    _ ≤ _ := hdur
  have hr : (80 : ℤ) ≤ jsRound (max (BASE_DURATION / clamp speed 0.25 4) MIN_DURATION
      * (SAMPLE_RATE : ℚ)) := by
    unfold jsRound
    calc (80 : ℤ) = ⌊(80 : ℚ) + 1 / 2⌋ := by norm_num
    _ ≤ _ := Int.floor_le_floor (by linarith)
  have hm : (80 : ℤ) ≤ max 1 (jsRound (max (BASE_DURATION / clamp speed 0.25 4) MIN_DURATION
      * (SAMPLE_RATE : ℚ))) := le_trans hr (le_max_right _ _)
  omega

theorem segmentSamples_total_eq (N : ℕ) (speed : ℚ) :
    (segmentSamples N speed).2 = max 1 ((segmentSamples N speed).1 * max 1 N) := rfl

/-- C8: for a non-empty series, rendering at speed 2 lasts at most half
as long as rendering at speed 1, and at every speed in `[0.25, 4]` the
duration is at least `N · MIN_DURATION`. -/
theorem rendering_duration_speed_bounds (series : SonificationSeries)
    (opts : SonificationOptions) (h : series.flux ≠ []) :
    (renderSonification series { opts with speed := 2 }).duration
      ≤ (renderSonification series { opts with speed := 1 }).duration / 2
    ∧ ∀ s : ℚ, 1 / 4 ≤ s → s ≤ 4
        → (series.flux.length : ℝ) * ((MIN_DURATION : ℚ) : ℝ)
          ≤ (renderSonification series { opts with speed := s }).duration := by
  have hN : 1 ≤ series.flux.length := List.length_pos.mpr h
  have hmaxN : max 1 series.flux.length = series.flux.length := by omega
  constructor
  · rw [renderSonification_duration, renderSonification_duration]
    have h2 : (segmentSamples series.flux.length 2).2 = 160 * series.flux.length := by
      rw [segmentSamples_total_eq, segmentSamples_perPoint_speed2, hmaxN]
      omega
    have h1 : (segmentSamples series.flux.length 1).2 = 320 * series.flux.length := by
      rw [segmentSamples_total_eq, segmentSamples_perPoint_speed1, hmaxN]
      omega
    show ((segmentSamples series.flux.length 2).2 : ℝ) / (SAMPLE_RATE : ℝ)
      ≤ ((segmentSamples series.flux.length 1).2 : ℝ) / (SAMPLE_RATE : ℝ) / 2
    rw [h1, h2, SAMPLE_RATE]
    push_cast
    apply le_of_eq
    ring
  · intro s hs1 hs2
    rw [renderSonification_duration]
    show (series.flux.length : ℝ) * ((MIN_DURATION : ℚ) : ℝ)
      ≤ ((segmentSamples series.flux.length s).2 : ℝ) / (SAMPLE_RATE : ℝ)
    have hp : 80 ≤ (segmentSamples series.flux.length s).1 :=
      segmentSamples_perPoint_ge series.flux.length s
    have htot : 80 * series.flux.length ≤ (segmentSamples series.flux.length s).2 := by
      rw [segmentSamples_total_eq, hmaxN]
      have := Nat.mul_le_mul_right series.flux.length hp
      omega
    have hmin : ((MIN_DURATION : ℚ) : ℝ) = 80 / (16000 : ℝ) := by
      norm_num [MIN_DURATION]
    have hcast : (80 * series.flux.length : ℝ)
        ≤ ((segmentSamples series.flux.length s).2 : ℝ) := by
      exact_mod_cast htot
    rw [hmin, SAMPLE_RATE]
    push_cast
    push_cast at hcast
    linarith

/-- Witness for C8 at the one-point series `flux = [1]`, with the
lower bound instantiated at speed 1. -/
theorem rendering_duration_speed_bounds_witness :
    (([(1 : ℝ)] : List ℝ) ≠ [])
    ∧ (renderSonification ⟨[1], none, none, none, []⟩
          ⟨SonificationMode.flux_pitch, 2, false, false, 1⟩).duration
        ≤ (renderSonification ⟨[1], none, none, none, []⟩
            ⟨SonificationMode.flux_pitch, 1, false, false, 1⟩).duration / 2
    ∧ (([(1 : ℝ)] : List ℝ).length : ℝ) * ((MIN_DURATION : ℚ) : ℝ)
        ≤ (renderSonification ⟨[1], none, none, none, []⟩
            ⟨SonificationMode.flux_pitch, 1, false, false, 1⟩).duration := by
  refine ⟨by simp, ?_, ?_⟩
  · exact (rendering_duration_speed_bounds ⟨[1], none, none, none, []⟩
      ⟨SonificationMode.flux_pitch, 1, false, false, 1⟩ (by simp)).1
  · exact (rendering_duration_speed_bounds ⟨[1], none, none, none, []⟩
      ⟨SonificationMode.flux_pitch, 1, false, false, 1⟩ (by simp)).2
      1 (by norm_num) (by norm_num)

/-! ## Claim C1 -/

/-- C1 fails on the code: rendering the *empty* series (any options;
here ping mode at speed 1, volume 1) yields a buffer of `perPoint`
= 320 samples and duration `0.02 s`, because
`total = max(1, perPoint · max(1, N))` floors the point count at 1 —
not an empty, zero-duration buffer. -/
theorem renderSonification_empty_flux_not_empty :
    (renderSonification ⟨[], none, none, none, []⟩
        ⟨SonificationMode.transit_ping, 1, false, false, 1⟩).left.length = 320
    ∧ (renderSonification ⟨[], none, none, none, []⟩
        ⟨SonificationMode.transit_ping, 1, false, false, 1⟩).duration ≠ 0 := by
  have htot : (segmentSamples (List.length ([] : List ℝ)) (1 : ℚ)).2 = 320 := by
    rw [segmentSamples_total_eq, segmentSamples_perPoint_speed1]
    simp
  constructor
  · rw [renderSonification_left_length]
    exact htot
  · rw [renderSonification_duration]
    rw [htot]
    norm_num [SAMPLE_RATE]

/-- C1 amended: rendering a series with empty flux raises no error
(the embedding is a total function) and returns one buffer of
`perPoint` samples per channel — duration `perPoint / 16000 > 0` —
rather than an empty buffer. -/
theorem renderSonification_empty_flux (series : SonificationSeries)
    (opts : SonificationOptions) (h : series.flux = []) :
    (renderSonification series opts).left.length = (segmentSamples 0 opts.speed).1
    ∧ (∀ r, (renderSonification series opts).right = some r
        → r.length = (segmentSamples 0 opts.speed).1)
    ∧ 0 < (renderSonification series opts).duration := by
  have htot : (segmentSamples 0 opts.speed).2 = (segmentSamples 0 opts.speed).1 := by
    rw [segmentSamples_total_eq]
    have hge := segmentSamples_perPoint_ge 0 opts.speed
    have h0 : max 1 0 = 1 := rfl
    rw [h0, Nat.mul_one]
    exact max_eq_right (le_trans (by norm_num) hge)
  refine ⟨?_, ?_, ?_⟩
  · rw [renderSonification_left_length, h]
    simpa using htot
  · intro r hr
    have hrl := renderSonification_right_length series opts r hr
    rw [h] at hrl
    simpa [htot] using hrl
  · rw [renderSonification_duration]
    apply div_pos
    · have h1 : 1 ≤ (segmentSamples series.flux.length opts.speed).2 :=
        segmentSamples_total_pos _ _
      exact_mod_cast lt_of_lt_of_le zero_lt_one (by exact_mod_cast h1)
    · norm_num [SAMPLE_RATE]

/-- Witness for the amended C1 at the empty series in stereo mode. -/
theorem renderSonification_empty_flux_witness :
    (renderSonification ⟨[], none, none, none, []⟩
        ⟨SonificationMode.odd_even, 1, false, true, 1⟩).left.length
      = (segmentSamples 0 1).1
    ∧ 0 < (renderSonification ⟨[], none, none, none, []⟩
        ⟨SonificationMode.odd_even, 1, false, true, 1⟩).duration := by
  have h := renderSonification_empty_flux ⟨[], none, none, none, []⟩
    ⟨SonificationMode.odd_even, 1, false, true, 1⟩ rfl
  exact ⟨h.1, h.2.2⟩

/-! ## Gain bound in the finite real model -/

/-- The peak scan starts at 0 and never decreases. -/
theorem peakVal_nonneg (l : List ℝ) : 0 ≤ peakVal l := by
  have aux : ∀ (l : List ℝ) (a : ℝ), a ≤ l.foldl (fun m x => max m |x|) a := by
    intro l
    induction l with
    | nil => intro a; exact le_refl a
    | cons x xs ih => intro a; exact le_trans (le_max_left a |x|) (ih _)
  exact aux l 0

/-- Every sample is bounded by the scanned peak. -/
theorem peakVal_le_of_mem {x : ℝ} {l : List ℝ} (hx : x ∈ l) : |x| ≤ peakVal l := by
  have auxmono : ∀ (l : List ℝ) (a : ℝ), a ≤ l.foldl (fun m x => max m |x|) a := by
    intro l
    induction l with
    | nil => intro a; exact le_refl a
    | cons y ys ih => intro a; exact le_trans (le_max_left a |y|) (ih _)
  have aux : ∀ (l : List ℝ) (a : ℝ), x ∈ l → |x| ≤ l.foldl (fun m x => max m |x|) a := by
    intro l
    induction l with
    | nil => intro a ha; cases ha
    | cons y ys ih =>
      intro a ha
      rcases List.mem_cons.mp ha with h | h
      · subst h
        exact le_trans (le_max_right a |x|) (auxmono ys _)
      · exact ih _ h
  exact aux l 0 hx

/-- After the `if (max > 0) divide by max·1.05` pass, every sample has
absolute value at most 1 (indeed at most `1/1.05`), provided `p` bounds
every input sample. -/
theorem normalizeWith_abs_le_one (p : ℝ) (l : List ℝ)
    (h : ∀ y ∈ l, |y| ≤ p) :
    ∀ x ∈ normalizeWith p l, |x| ≤ 1 := by
  intro x hx
  unfold normalizeWith at hx
  by_cases hp : 0 < p
  · rw [if_pos hp] at hx
    obtain ⟨y, hy, rfl⟩ := List.mem_map.mp hx
    have hden : 0 < p * 1.05 := by nlinarith
    rw [abs_div, abs_of_pos hden]
    rw [div_le_one hden]
    nlinarith [h y hy]
  · rw [if_neg hp] at hx
    have h0 : |x| ≤ p := h x hx
    have : p ≤ 0 := le_of_not_lt hp
    linarith [abs_nonneg x]

/-- A one-buffer render normalized by its own peak is bounded by 1. -/
theorem normalizeWith_peak_abs_le_one (l : List ℝ) :
    ∀ x ∈ normalizeWith (peakVal l) l, |x| ≤ 1 :=
  normalizeWith_abs_le_one _ _ (fun _ hy => peakVal_le_of_mem hy)

/-- Volume stage: scaling samples bounded by 1 with the clamped volume
bounds them by the clamped volume. -/
theorem map_volume_bound (cv : ℝ) (hcv0 : 0 ≤ cv) (l : List ℝ)
    (h : ∀ y ∈ l, |y| ≤ 1) :
    ∀ x ∈ l.map (fun y => y * cv), |x| ≤ cv := by
  intro x hx
  obtain ⟨y, hy, rfl⟩ := List.mem_map.mp hx
  rw [abs_mul, abs_of_nonneg hcv0]
  calc |y| * cv ≤ 1 * cv := mul_le_mul_of_nonneg_right (h y hy) hcv0
  _ = cv := one_mul cv

/-- In the finite real-valued model, every sample of every channel of
the rendered audio has absolute value at most the clamped volume after
the final gain stage.  This is a lemma about the finite model only:
the faithful statement over the NaN-aware semantics is
`gain_bounds_nonempty` below, and it needs the non-emptiness
hypothesis, because the empty series renders to NaN samples in the
melodic modes (`gain_bound_counterexample`). -/
theorem realRender_gain_bound (series : SonificationSeries) (opts : SonificationOptions) :
    (renderSonification series opts).left.Forall
      (fun x => |x| ≤ clamp opts.volume 0 1)
    ∧ ((renderSonification series opts).right.getD []).Forall
      (fun x => |x| ≤ clamp opts.volume 0 1) := by
  rcases opts with ⟨mode, sp, q, st, vol⟩
  have hcv : 0 ≤ clamp vol 0 1 := le_max_left 0 _
  cases mode with
  | transit_ping =>
    constructor
    · rw [List.forall_iff_forall_mem]
      exact map_volume_bound _ hcv _ (normalizeWith_peak_abs_le_one _)
    · rw [List.forall_iff_forall_mem]
      intro x hx
      simp [renderSonification] at hx
  | flux_pitch =>
    constructor
    · rw [List.forall_iff_forall_mem]
      exact map_volume_bound _ hcv _ (normalizeWith_peak_abs_le_one _)
    · rw [List.forall_iff_forall_mem]
      intro x hx
      simp [renderSonification] at hx
  | odd_even =>
    cases st with
    | false =>
      constructor
      · rw [List.forall_iff_forall_mem]
        exact map_volume_bound _ hcv _ (normalizeWith_peak_abs_le_one _)
      · rw [List.forall_iff_forall_mem]
        intro x hx
        simp [renderSonification, renderOddEven] at hx
    | true =>
      constructor
      · rw [List.forall_iff_forall_mem]
        apply map_volume_bound _ hcv
        apply normalizeWith_abs_le_one
        intro y hy
        exact le_trans (peakVal_le_of_mem hy) (le_max_left _ _)
      · rw [List.forall_iff_forall_mem]
        apply map_volume_bound _ hcv
        apply normalizeWith_abs_le_one
        intro y hy
        exact le_trans (peakVal_le_of_mem hy) (le_max_right _ _)

/-! ## Claim C4 -/

/-- C4: in stereo-split (`odd_even`) mode with `stereo = false`, the
render is identical — the whole `RenderedAudio` value — to melody
(`flux_pitch`) mode with the same remaining options. -/
theorem stereoSplit_mono_eq_melody (series : SonificationSeries)
    (sp : ℚ) (q : Bool) (vol : ℝ) :
    renderSonification series ⟨SonificationMode.odd_even, sp, q, false, vol⟩
      = renderSonification series ⟨SonificationMode.flux_pitch, sp, q, false, vol⟩ := rfl

/-! ## Claim C3 -/

/-- C3 fails on the code: for `flux = [0, 2e-9]` the population σ is
`1e-9`, which is positive but below `1e-6`; the JS `||` keeps the truthy
`1e-9` as the divisor, so the divisor is *not* `max(σ, 1e-6)`. -/
theorem sigma_floor_counterexample :
    0 < Real.sqrt (fluxVariance [0, 2e-9])
    ∧ Real.sqrt (fluxVariance [0, 2e-9]) < 1e-6
    ∧ fluxStd [0, 2e-9] ≠ max (Real.sqrt (fluxVariance [0, 2e-9])) 1e-6 := by
  have hvar : fluxVariance [0, 2e-9] = 1e-18 := by
    unfold fluxVariance fluxMean
    norm_num
  have hsqrt : Real.sqrt (fluxVariance [0, 2e-9]) = 1e-9 := by
    rw [hvar]
    have h2 : (1e-18 : ℝ) = (1e-9 : ℝ) ^ 2 := by norm_num
    rw [h2, Real.sqrt_sq (by norm_num)]
  refine ⟨by rw [hsqrt]; norm_num, by rw [hsqrt]; norm_num, ?_⟩
  unfold fluxStd
  rw [if_neg (by rw [hsqrt]; norm_num), hsqrt]
  rw [max_eq_right (by norm_num)]
  norm_num

/-- C3 amended: the Frequency Mapper divides by σ itself whenever
σ > 0 — even when σ < 1e-6 — and by the 1e-6 fallback exactly when
σ = 0 (the JS `||` tests falsiness, not a lower bound). -/
theorem sigma_fallback_only_at_zero (flux : List ℝ) :
    (0 < Real.sqrt (fluxVariance flux)
      → fluxStd flux = Real.sqrt (fluxVariance flux))
    ∧ (Real.sqrt (fluxVariance flux) = 0 → fluxStd flux = 1e-6) := by
  constructor
  · intro h
    unfold fluxStd
    rw [if_neg (ne_of_gt h)]
  · intro h
    unfold fluxStd
    rw [if_pos h]

/-- Witness for the amended C3: a positive-σ flux keeps σ, a constant
flux gets the 1e-6 fallback. -/
theorem sigma_fallback_only_at_zero_witness :
    0 < Real.sqrt (fluxVariance [(0 : ℝ), 2])
    ∧ fluxStd [(0 : ℝ), 2] = Real.sqrt (fluxVariance [(0 : ℝ), 2])
    ∧ Real.sqrt (fluxVariance [(5 : ℝ), 5]) = 0
    ∧ fluxStd [(5 : ℝ), 5] = 1e-6 := by
  have hvar : fluxVariance [(0 : ℝ), 2] = 1 := by
    unfold fluxVariance fluxMean
    norm_num
  have h0 : 0 < Real.sqrt (fluxVariance [(0 : ℝ), 2]) := by
    rw [hvar, Real.sqrt_one]
    norm_num
  have hvar5 : fluxVariance [(5 : ℝ), 5] = 0 := by
    unfold fluxVariance fluxMean
    norm_num
  have h5 : Real.sqrt (fluxVariance [(5 : ℝ), 5]) = 0 := by
    rw [hvar5, Real.sqrt_zero]
  exact ⟨h0, (sigma_fallback_only_at_zero [(0 : ℝ), 2]).1 h0, h5,
    (sigma_fallback_only_at_zero [(5 : ℝ), 5]).2 h5⟩

/-! ## Claim C7 -/

/-- C7: for every non-empty flux array whose values are all identical,
the Frequency Mapper (the unquantized frequency series) returns the
band midpoint 550 Hz for every sample: σ collapses to 0, the 1e-6
fallback makes `z = 0`, and `220 + (3/6)·660 = 550`. -/
theorem frequencyMapper_constant_flux (flux : List ℝ) (c : ℝ)
    (hne : flux ≠ []) (hc : ∀ x ∈ flux, x = c) :
    (frequencySeries flux false).Forall (fun f => f = 550) := by
  have hlen : flux.length ≠ 0 := fun h => hne (List.eq_nil_of_length_eq_zero h)
  have hlenR : ((flux.length : ℝ)) ≠ 0 := Nat.cast_ne_zero.mpr hlen
  have hsum : flux.sum = (flux.length : ℝ) * c := by
    have hrep : flux = List.replicate flux.length c := List.eq_replicate_of_mem hc
    calc flux.sum = (List.replicate flux.length c).sum := by rw [← hrep]
    _ = flux.length • c := List.sum_replicate _ _
    _ = (flux.length : ℝ) * c := nsmul_eq_mul _ _
  have hmean : fluxMean flux = c := by
    unfold fluxMean
    rw [hsum]
    field_simp
  have hvar : fluxVariance flux = 0 := by
    unfold fluxVariance
    rw [List.sum_eq_zero, zero_div]
    intro x hx
    obtain ⟨v, hv, rfl⟩ := List.mem_map.mp hx
    rw [hmean, hc v hv]
    ring
  have hstd : fluxStd flux = 1e-6 := by
    unfold fluxStd
    rw [if_pos (by rw [hvar, Real.sqrt_zero])]
  rw [List.forall_iff_forall_mem]
  intro f hf
  unfold frequencySeries at hf
  rw [if_neg hlen] at hf
  obtain ⟨v, hv, rfl⟩ := List.mem_map.mp hf
  rw [hmean, hstd, hc v hv]
  norm_num [clamp]

/-- Witness for C7 at the spec's example `flux = [1,1,1,1,1]`. -/
theorem frequencyMapper_constant_flux_witness :
    ([(1 : ℝ), 1, 1, 1, 1] ≠ ([] : List ℝ))
    ∧ (frequencySeries [(1 : ℝ), 1, 1, 1, 1] false).Forall (fun f => f = 550) := by
  refine ⟨by simp, frequencyMapper_constant_flux _ 1 (by simp) ?_⟩
  intro x hx
  simp at hx
  simp [hx]

/-! ## Claim C5 -/

/-- The `reduce` over the pentatonic steps always returns one of the
steps. -/
theorem nearestStep_mem (w : ℝ) :
    nearestStep w = 0 ∨ nearestStep w = 2 ∨ nearestStep w = 4
    ∨ nearestStep w = 7 ∨ nearestStep w = 9 := by
  unfold nearestStep pickStep
  simp only [List.foldl]
  split_ifs <;> simp

/-- The `reduce` is the identity on the pentatonic steps themselves
(distance 0 beats every other step under the strict comparison). -/
theorem nearestStep_self (w : ℝ)
    (hw : w = 0 ∨ w = 2 ∨ w = 4 ∨ w = 7 ∨ w = 9) : nearestStep w = w := by
  unfold nearestStep pickStep
  rcases hw with h | h | h | h | h <;> subst h <;> norm_num

/-- A frequency of the exact pentatonic form `440·2^((12o+st−69)/12)`
is a fixed point of `quantizeFrequency`. -/
theorem quantizeFrequency_fixed (o : ℤ) (st : ℝ)
    (hst : st = 0 ∨ st = 2 ∨ st = 4 ∨ st = 7 ∨ st = 9) :
    quantizeFrequency (440 * (2 : ℝ) ^ (((o : ℝ) * 12 + st - 69) / 12))
      = 440 * (2 : ℝ) ^ (((o : ℝ) * 12 + st - 69) / 12) := by
  have hpos : (0 : ℝ) < 440 * (2 : ℝ) ^ (((o : ℝ) * 12 + st - 69) / 12) := by positivity
  have hdiv : 440 * (2 : ℝ) ^ (((o : ℝ) * 12 + st - 69) / 12) / 440
      = (2 : ℝ) ^ (((o : ℝ) * 12 + st - 69) / 12) :=
    mul_div_cancel_left₀ _ (by norm_num)
  have hlogb : Real.logb 2 ((2 : ℝ) ^ (((o : ℝ) * 12 + st - 69) / 12))
      = ((o : ℝ) * 12 + st - 69) / 12 := Real.logb_rpow (by norm_num) (by norm_num)
  have hmidi : 69 + 12 * Real.logb 2
        (440 * (2 : ℝ) ^ (((o : ℝ) * 12 + st - 69) / 12) / 440)
      = (o : ℝ) * 12 + st := by
    rw [hdiv, hlogb]; ring
  have hfl : ⌊((o : ℝ) * 12 + st) / 12⌋ = o := by
    have h1 : ((o : ℝ) * 12 + st) / 12 = st / 12 + (o : ℤ) := by ring
    rw [h1, Int.floor_add_int]
    have h2 : ⌊st / 12⌋ = 0 := by
      rw [Int.floor_eq_zero_iff]
      constructor
      · rcases hst with h | h | h | h | h <;> subst h <;> norm_num
      · rcases hst with h | h | h | h | h <;> subst h <;> norm_num
    rw [h2, zero_add]
  unfold quantizeFrequency
  rw [if_neg (not_le.mpr hpos)]
  simp only [hmidi, hfl]
  have hwin : (o : ℝ) * 12 + st - (o : ℝ) * 12 = st := by ring
  rw [hwin, nearestStep_self st hst]

/-- Every output of `quantizeFrequency` (the 220 fallback included,
since `220 = 440·2^((4·12+9−69)/12)`) has the pentatonic form. -/
theorem quantizeFrequency_form (f : ℝ) :
    ∃ (o : ℤ) (st : ℝ), (st = 0 ∨ st = 2 ∨ st = 4 ∨ st = 7 ∨ st = 9)
      ∧ quantizeFrequency f = 440 * (2 : ℝ) ^ (((o : ℝ) * 12 + st - 69) / 12) := by
  by_cases hf : f ≤ 0
  · refine ⟨4, 9, by norm_num, ?_⟩
    unfold quantizeFrequency
    rw [if_pos hf]
    have he : ((((4 : ℤ) : ℝ)) * 12 + 9 - 69) / 12 = -1 := by norm_num
    rw [he]
    rw [show (-1 : ℝ) = ((-1 : ℤ) : ℝ) by norm_num, Real.rpow_intCast]
    norm_num
  · refine ⟨⌊(69 + 12 * Real.logb 2 (f / 440)) / 12⌋,
      nearestStep (69 + 12 * Real.logb 2 (f / 440)
        - ((⌊(69 + 12 * Real.logb 2 (f / 440)) / 12⌋ : ℤ) : ℝ) * 12),
      nearestStep_mem _, ?_⟩
    unfold quantizeFrequency
    rw [if_neg hf]

/-- C5: the Scale Quantizer is idempotent — exactly, not merely within
floating tolerance — for every positive frequency. -/
theorem scaleQuantizer_idempotent (f : ℝ) (hf : 0 < f) :
    quantizeFrequency (quantizeFrequency f) = quantizeFrequency f := by
  obtain ⟨o, st, hst, hform⟩ := quantizeFrequency_form f
  rw [hform, quantizeFrequency_fixed o st hst]

/-- Witness for C5 at `f = 440`. -/
theorem scaleQuantizer_idempotent_witness :
    (0 : ℝ) < 440
    ∧ quantizeFrequency (quantizeFrequency 440) = quantizeFrequency 440 :=
  ⟨by norm_num, scaleQuantizer_idempotent 440 (by norm_num)⟩

/-! ## Claim C9 -/

/-- The constant flux `[0]` maps to the midpoint frequency series
`[550]`. -/
theorem frequencySeries_zero : frequencySeries [(0 : ℝ)] false = [550] := by
  unfold frequencySeries fluxStd fluxVariance fluxMean
  norm_num [clamp]

/-- The running phase after sample 159 at 550 Hz and `perPoint = 320`
is exactly `160 · 2π·550/16000 = 11π`. -/
theorem oscPhase_159 : oscPhase [550] 1 320 159 = 11 * Real.pi := by
  unfold oscPhase
  have hterm : ∀ k ∈ Finset.range 160,
      2 * Real.pi * jsGetD [550] (dataIndex 1 320 k) / (SAMPLE_RATE : ℝ)
        = 2 * Real.pi * 550 / 16000 := by
    intro k hk
    have hdi : dataIndex 1 320 k = 0 := by
      unfold dataIndex
      simp only [Finset.mem_range] at hk
      omega
    rw [hdi]
    norm_num [jsGetD, SAMPLE_RATE]
  rw [Finset.sum_congr rfl hterm, Finset.sum_const, Finset.card_range, nsmul_eq_mul]
  push_cast
  ring

/-- The oscillator value at sample 159 of the `flux = [0]`, speed-1,
odd-tagged stereo render is exactly `sin(11π) = 0`. -/
theorem melodySample_159_eq_zero (amplitudes : List ℝ) :
    melodySample [550] amplitudes 1 320 159 = 0 := by
  unfold melodySample
  rw [oscPhase_159]
  rw [show (11 : ℝ) * Real.pi = ((11 : ℤ) : ℝ) * Real.pi by norm_num,
    Real.sin_int_mul_pi, zero_mul]

/-- C9 fails as stated: in the stereo split of the one-point series
`flux = [0]` tagged `odd` at speed 1 (`perPoint = 320`, `total = 320`),
output sample 159 exists, is fed by the odd-tagged data point, yet its
left-channel magnitude does NOT exceed its right-channel magnitude:
the running phase is exactly `11π` there, so the oscillator value and
hence both channels are 0. -/
theorem stereo_pan_strict_counterexample :
    159 < (segmentSamples 1 1).2
    ∧ tagAt (resolveOddEven (some [OddEvenTag.odd]) 1) 1 (segmentSamples 1 1).1 159
        = OddEvenTag.odd
    ∧ ¬ (|oddEvenRightRaw (frequencySeries [0] false)
            (amplitudeSeries (resolveBoolArray none 1) (resolveBoolArray none 1))
            (resolveOddEven (some [OddEvenTag.odd]) 1) 1 (segmentSamples 1 1).1 159|
          < |oddEvenLeftRaw (frequencySeries [0] false)
            (amplitudeSeries (resolveBoolArray none 1) (resolveBoolArray none 1))
            (resolveOddEven (some [OddEvenTag.odd]) 1) 1 (segmentSamples 1 1).1 159|) := by
  have hpp : (segmentSamples 1 1).1 = 320 := segmentSamples_perPoint_speed1 1
  have htot : (segmentSamples 1 1).2 = 320 := by
    rw [segmentSamples_total_eq, hpp]
    decide
  have hv : melodySample (frequencySeries [0] false)
      (amplitudeSeries (resolveBoolArray none 1) (resolveBoolArray none 1))
      1 (segmentSamples 1 1).1 159 = 0 := by
    rw [hpp, frequencySeries_zero]
    exact melodySample_159_eq_zero _
  refine ⟨by rw [htot]; norm_num, by rw [hpp]; rfl, ?_⟩
  unfold oddEvenRightRaw oddEvenLeftRaw
  rw [hv, zero_mul, zero_mul, abs_zero]
  exact lt_irrefl 0

/-- C9 amended: in stereo-split mode with stereo enabled, before the
gain stage, an odd-tagged sample has `|left| = 3·|right|` (75/25 split,
so left strictly exceeds right whenever the oscillator value is
nonzero, and both are 0 when it is 0); an even-tagged sample has
`|right| = 3·|left|` (25/75); a none-tagged sample has `left = right`
exactly (50/50). -/
theorem stereo_pan_magnitudes (freqs amplitudes : List ℝ)
    (oddEven : List OddEvenTag) (N perPoint s : ℕ) :
    (tagAt oddEven N perPoint s = OddEvenTag.odd
      → |oddEvenLeftRaw freqs amplitudes oddEven N perPoint s|
          = 3 * |oddEvenRightRaw freqs amplitudes oddEven N perPoint s|
        ∧ (melodySample freqs amplitudes N perPoint s ≠ 0
          → |oddEvenRightRaw freqs amplitudes oddEven N perPoint s|
            < |oddEvenLeftRaw freqs amplitudes oddEven N perPoint s|))
    ∧ (tagAt oddEven N perPoint s = OddEvenTag.even
      → |oddEvenRightRaw freqs amplitudes oddEven N perPoint s|
          = 3 * |oddEvenLeftRaw freqs amplitudes oddEven N perPoint s|
        ∧ (melodySample freqs amplitudes N perPoint s ≠ 0
          → |oddEvenLeftRaw freqs amplitudes oddEven N perPoint s|
            < |oddEvenRightRaw freqs amplitudes oddEven N perPoint s|))
    ∧ (tagAt oddEven N perPoint s = OddEvenTag.neither
      → oddEvenLeftRaw freqs amplitudes oddEven N perPoint s
          = oddEvenRightRaw freqs amplitudes oddEven N perPoint s) := by
  have h1 : |(1 : ℝ) - 0.25| = 0.75 := by norm_num
  have h2 : |(0.25 : ℝ)| = 0.25 := by norm_num
  have h3 : |(1 : ℝ) - 0.75| = 0.25 := by norm_num
  have h4 : |(0.75 : ℝ)| = 0.75 := by norm_num
  unfold oddEvenLeftRaw oddEvenRightRaw
  refine ⟨?_, ?_, ?_⟩ <;> intro htag <;> rw [htag] <;> simp only [panOf]
  · constructor
    · rw [abs_mul, abs_mul, h1, h2]
      ring
    · intro hv
      rw [abs_mul, abs_mul, h1, h2]
      have habs : 0 < |melodySample freqs amplitudes N perPoint s| := abs_pos.mpr hv
      nlinarith
  · constructor
    · rw [abs_mul, abs_mul, h3, h4]
      ring
    · intro hv
      rw [abs_mul, abs_mul, h3, h4]
      have habs : 0 < |melodySample freqs amplitudes N perPoint s| := abs_pos.mpr hv
      nlinarith
  · norm_num

/-- Witness for the amended C9: sample 0 of a one-point odd-tagged
series at `perPoint = 1` has a nonzero oscillator value
(`sin(11π/160) > 0`), so left strictly exceeds right there. -/
theorem stereo_pan_magnitudes_witness :
    tagAt [OddEvenTag.odd] 1 1 0 = OddEvenTag.odd
    ∧ melodySample [550] [1] 1 1 0 ≠ 0
    ∧ |oddEvenRightRaw [550] [1] [OddEvenTag.odd] 1 1 0|
        < |oddEvenLeftRaw [550] [1] [OddEvenTag.odd] 1 1 0| := by
  have htag : tagAt [OddEvenTag.odd] 1 1 0 = OddEvenTag.odd := rfl
  have hphase : oscPhase [550] 1 1 0 = 11 * Real.pi / 160 := by
    unfold oscPhase
    rw [Finset.sum_range_one]
    have hdi : dataIndex 1 1 0 = 0 := by unfold dataIndex; norm_num
    rw [hdi]
    norm_num [jsGetD, SAMPLE_RATE]
    ring
  have hsin : 0 < Real.sin (11 * Real.pi / 160) := by
    apply Real.sin_pos_of_pos_of_lt_pi
    · positivity
    · nlinarith [Real.pi_pos]
  have hv : melodySample [550] [1] 1 1 0 ≠ 0 := by
    unfold melodySample
    rw [hphase]
    have hget : jsGetD [1] (dataIndex 1 1 0) = 1 := by
      rw [show dataIndex 1 1 0 = 0 from by unfold dataIndex; norm_num]
      norm_num [jsGetD]
    rw [hget, mul_one]
    exact ne_of_gt hsin
  exact ⟨htag, hv, ((stereo_pan_magnitudes [550] [1] [OddEvenTag.odd] 1 1 0).1 htag).2 hv⟩

/-! ## Bridging the finite model and the NaN-aware model -/

theorem jsAdd_nan (a : JSNum) : jsAdd a JSNum.nan = JSNum.nan := by
  cases a <;> rfl

theorem jsMul_nan_left (a : JSNum) : jsMul JSNum.nan a = JSNum.nan := by
  cases a <;> rfl

theorem jsMax_nan (a : JSNum) : jsMax a JSNum.nan = JSNum.nan := by
  cases a <;> rfl

theorem jsMax_nan_left (a : JSNum) : jsMax JSNum.nan a = JSNum.nan := by
  cases a <;> rfl

/-- Reading the empty array is out of range at every index. -/
theorem jsRead_nil (i : ℤ) : jsRead [] i = JSNum.nan := by
  unfold jsRead
  rw [if_neg]
  rintro ⟨h0, hlt⟩
  simp only [List.length_nil, Nat.cast_zero] at hlt
  omega

/-- In range, the JS read is the finite-model read. -/
theorem jsRead_fin (l : List ℝ) (i : ℤ) (h0 : 0 ≤ i) (hlt : i < (l.length : ℤ)) :
    jsRead l i = JSNum.fin (jsGetD l i) := by
  unfold jsRead jsGetD
  rw [if_pos ⟨h0, hlt⟩, if_pos h0]

/-- Non-empty flux keeps every data index in `[0, N)`. -/
theorem dataIndex_bounds (N perPoint s : ℕ) (hN : 1 ≤ N) :
    0 ≤ dataIndex N perPoint s ∧ dataIndex N perPoint s < (N : ℤ) := by
  unfold dataIndex
  constructor
  · apply le_min
    · have h1 : (1 : ℤ) ≤ (N : ℤ) := by exact_mod_cast hN
      omega
    · exact Int.ediv_nonneg (by positivity) (by positivity)
  · calc min ((N : ℤ) - 1) ((s : ℤ) / (perPoint : ℤ)) ≤ (N : ℤ) - 1 := min_le_left _ _
    _ < (N : ℤ) := by omega

/-- With every frequency read in range, the NaN-aware phase is the
finite-model phase. -/
theorem oscPhaseJS_fin (freqs : List ℝ) (N perPoint : ℕ) (hN : 1 ≤ N)
    (hlen : N ≤ freqs.length) (s : ℕ) :
    oscPhaseJS freqs N perPoint s = JSNum.fin (oscPhase freqs N perPoint s) := by
  have hterm : ∀ k : ℕ,
      jsDiv (jsMul (JSNum.fin (2 * Real.pi)) (jsRead freqs (dataIndex N perPoint k)))
          (JSNum.fin (SAMPLE_RATE : ℝ))
        = JSNum.fin (2 * Real.pi * jsGetD freqs (dataIndex N perPoint k)
            / (SAMPLE_RATE : ℝ)) := by
    intro k
    obtain ⟨h0, hlt⟩ := dataIndex_bounds N perPoint k hN
    rw [jsRead_fin _ _ h0 (lt_of_lt_of_le hlt (by exact_mod_cast hlen))]
    rfl
  induction s with
  | zero =>
    unfold oscPhaseJS oscPhase
    rw [show List.range (0 + 1) = [0] from by
      rw [List.range_succ, List.range_zero, List.nil_append]]
    rw [List.foldl_cons, List.foldl_nil, hterm 0, Finset.sum_range_succ,
      Finset.sum_range_zero]
    rfl
  | succ s ih =>
    unfold oscPhaseJS at ih ⊢
    rw [List.range_succ, List.foldl_append, ih, List.foldl_cons, List.foldl_nil,
      hterm (s + 1)]
    show JSNum.fin (oscPhase freqs N perPoint s
      + 2 * Real.pi * jsGetD freqs (dataIndex N perPoint (s + 1)) / (SAMPLE_RATE : ℝ)) = _
    congr 1
    unfold oscPhase
    conv_rhs => rw [Finset.sum_range_succ]

/-- With every read in range, the NaN-aware sample is the finite-model
sample. -/
theorem melodySampleJS_fin (freqs amplitudes : List ℝ) (N perPoint : ℕ)
    (hN : 1 ≤ N) (hfl : N ≤ freqs.length) (hal : N ≤ amplitudes.length) (s : ℕ) :
    melodySampleJS freqs amplitudes N perPoint s
      = JSNum.fin (melodySample freqs amplitudes N perPoint s) := by
  obtain ⟨h0, hlt⟩ := dataIndex_bounds N perPoint s hN
  unfold melodySampleJS melodySample
  rw [oscPhaseJS_fin freqs N perPoint hN hfl s,
    jsRead_fin _ _ h0 (lt_of_lt_of_le hlt (by exact_mod_cast hal))]
  rfl

/-- The NaN-aware peak scan of a finite buffer is its finite peak. -/
theorem peakValJS_map_fin (l : List ℝ) :
    peakValJS (l.map JSNum.fin) = JSNum.fin (peakVal l) := by
  unfold peakValJS peakVal
  have aux : ∀ (l : List ℝ) (a : ℝ),
      (l.map JSNum.fin).foldl (fun m v => jsMax m (jsAbs v)) (JSNum.fin a)
        = JSNum.fin (l.foldl (fun m x => max m |x|) a) := by
    intro l
    induction l with
    | nil => intro a; rfl
    | cons x xs ih =>
      intro a
      rw [List.map_cons, List.foldl_cons, List.foldl_cons]
      exact ih _
  exact aux l 0

/-- The NaN-aware normalization of a finite buffer by a finite peak is
the finite-model normalization. -/
theorem normalizeWithJS_map_fin (p : ℝ) (l : List ℝ) :
    normalizeWithJS (JSNum.fin p) (l.map JSNum.fin)
      = (normalizeWith p l).map JSNum.fin := by
  show (if 0 < p then (l.map JSNum.fin).map
        (fun v => jsDiv v (jsMul (JSNum.fin p) (JSNum.fin 1.05)))
      else l.map JSNum.fin)
    = (normalizeWith p l).map JSNum.fin
  unfold normalizeWith
  by_cases hp : 0 < p
  · rw [if_pos hp, if_pos hp, List.map_map, List.map_map]
    rfl
  · rw [if_neg hp, if_neg hp]

theorem frequencySeries_length (flux : List ℝ) (q : Bool) :
    (frequencySeries flux q).length = flux.length := by
  unfold frequencySeries
  split
  · next h => simp [h]
  · simp

theorem amplitudeSeries_length (inTransit secondary : List Bool) :
    (amplitudeSeries inTransit secondary).length = inTransit.length := by
  unfold amplitudeSeries
  simp

/-- With every read in range, the NaN-aware melody render is the
finite-model render. -/
theorem renderFluxPitchJS_fin (series : SonificationSeries)
    (freqs amplitudes : List ℝ) (perPoint total : ℕ)
    (hN : 1 ≤ series.flux.length) (hfl : series.flux.length ≤ freqs.length)
    (hal : series.flux.length ≤ amplitudes.length) :
    renderFluxPitchJS series freqs amplitudes perPoint total
      = (renderFluxPitch series freqs amplitudes perPoint total).map JSNum.fin := by
  simp only [renderFluxPitchJS, renderFluxPitch]
  have hbuf : (List.range total).map
        (melodySampleJS freqs amplitudes series.flux.length perPoint)
      = ((List.range total).map
          (melodySample freqs amplitudes series.flux.length perPoint)).map JSNum.fin := by
    rw [List.map_map]
    apply List.map_congr_left
    intro s _
    exact melodySampleJS_fin freqs amplitudes _ perPoint hN hfl hal s
  rw [hbuf, peakValJS_map_fin, normalizeWithJS_map_fin]

/-- With every read in range, the NaN-aware stereo-split render is the
finite-model render. -/
theorem renderOddEvenJS_fin (series : SonificationSeries)
    (freqs amplitudes : List ℝ) (oddEven : List OddEvenTag)
    (perPoint total : ℕ) (stereo : Bool)
    (hN : 1 ≤ series.flux.length) (hfl : series.flux.length ≤ freqs.length)
    (hal : series.flux.length ≤ amplitudes.length) :
    renderOddEvenJS series freqs amplitudes oddEven perPoint total stereo
      = ((renderOddEven series freqs amplitudes oddEven perPoint total stereo).1.map
          JSNum.fin,
        (renderOddEven series freqs amplitudes oddEven perPoint total stereo).2.map
          (List.map JSNum.fin)) := by
  cases stereo with
  | false =>
    simp only [renderOddEvenJS, renderOddEven, Bool.false_eq_true, if_false,
      Option.map_none']
    rw [renderFluxPitchJS_fin series freqs amplitudes perPoint total hN hfl hal]
  | true =>
    simp only [renderOddEvenJS, renderOddEven, if_true]
    have hleft : (List.range total).map (fun s =>
          jsMul (melodySampleJS freqs amplitudes series.flux.length perPoint s)
            (JSNum.fin (1 - panOf (tagAt oddEven series.flux.length perPoint s))))
        = ((List.range total).map
            (oddEvenLeftRaw freqs amplitudes oddEven series.flux.length perPoint)).map
            JSNum.fin := by
      rw [List.map_map]
      apply List.map_congr_left
      intro s _
      rw [melodySampleJS_fin freqs amplitudes _ perPoint hN hfl hal s]
      rfl
    have hright : (List.range total).map (fun s =>
          jsMul (melodySampleJS freqs amplitudes series.flux.length perPoint s)
            (JSNum.fin (panOf (tagAt oddEven series.flux.length perPoint s))))
        = ((List.range total).map
            (oddEvenRightRaw freqs amplitudes oddEven series.flux.length perPoint)).map
            JSNum.fin := by
      rw [List.map_map]
      apply List.map_congr_left
      intro s _
      rw [melodySampleJS_fin freqs amplitudes _ perPoint hN hfl hal s]
      rfl
    rw [hleft, hright, peakValJS_map_fin, peakValJS_map_fin]
    rw [show jsMax (JSNum.fin (peakVal ((List.range total).map
          (oddEvenLeftRaw freqs amplitudes oddEven series.flux.length perPoint))))
        (JSNum.fin (peakVal ((List.range total).map
          (oddEvenRightRaw freqs amplitudes oddEven series.flux.length perPoint))))
      = JSNum.fin (max (peakVal ((List.range total).map
          (oddEvenLeftRaw freqs amplitudes oddEven series.flux.length perPoint)))
        (peakVal ((List.range total).map
          (oddEvenRightRaw freqs amplitudes oddEven series.flux.length perPoint))))
      from rfl]
    rw [normalizeWithJS_map_fin, normalizeWithJS_map_fin]
    rfl

/-- With a non-empty series — or in ping mode, which performs no
numeric array reads — the NaN-aware render is the finite-model render
channel for channel. -/
theorem renderSonificationJS_fin (series : SonificationSeries)
    (opts : SonificationOptions)
    (h : series.flux ≠ [] ∨ opts.mode = SonificationMode.transit_ping) :
    (renderSonificationJS series opts).left
        = (renderSonification series opts).left.map JSNum.fin
    ∧ (renderSonificationJS series opts).right
        = (renderSonification series opts).right.map (List.map JSNum.fin) := by
  rcases opts with ⟨mode, sp, q, st, vol⟩
  cases mode with
  | transit_ping =>
    constructor
    · show ((renderTransitPing series _ _ sp _).map JSNum.fin).map _
        = ((renderTransitPing series _ _ sp _).map _).map JSNum.fin
      rw [List.map_map, List.map_map]
      rfl
    · rfl
  | flux_pitch =>
    have hne : series.flux ≠ [] := by
      rcases h with h | h
      · exact h
      · cases h
    have hN : 1 ≤ series.flux.length := List.length_pos.mpr hne
    have hfl : series.flux.length ≤ (frequencySeries series.flux q).length := by
      rw [frequencySeries_length]
    have hal : series.flux.length
        ≤ (amplitudeSeries (resolveBoolArray series.in_transit series.flux.length)
            (resolveBoolArray series.secondary_mask series.flux.length)).length := by
      rw [amplitudeSeries_length, resolveBoolArray_length]
    constructor
    · simp only [renderSonificationJS, renderSonification]
      rw [renderFluxPitchJS_fin series _ _ _ _ hN hfl hal, List.map_map, List.map_map]
      rfl
    · rfl
  | odd_even =>
    have hne : series.flux ≠ [] := by
      rcases h with h | h
      · exact h
      · cases h
    have hN : 1 ≤ series.flux.length := List.length_pos.mpr hne
    have hfl : series.flux.length ≤ (frequencySeries series.flux q).length := by
      rw [frequencySeries_length]
    have hal : series.flux.length
        ≤ (amplitudeSeries (resolveBoolArray series.in_transit series.flux.length)
            (resolveBoolArray series.secondary_mask series.flux.length)).length := by
      rw [amplitudeSeries_length, resolveBoolArray_length]
    have hdo := renderOddEvenJS_fin series (frequencySeries series.flux q)
      (amplitudeSeries (resolveBoolArray series.in_transit series.flux.length)
        (resolveBoolArray series.secondary_mask series.flux.length))
      (resolveOddEven series.odd_even series.flux.length)
      (segmentSamples series.flux.length sp).1 (segmentSamples series.flux.length sp).2
      st hN hfl hal
    constructor
    · simp only [renderSonificationJS, renderSonification]
      rw [hdo]
      rw [List.map_map, List.map_map]
      rfl
    · simp only [renderSonificationJS, renderSonification]
      rw [hdo]
      cases hrt : (renderOddEven series (frequencySeries series.flux q)
          (amplitudeSeries (resolveBoolArray series.in_transit series.flux.length)
            (resolveBoolArray series.secondary_mask series.flux.length))
          (resolveOddEven series.odd_even series.flux.length)
          (segmentSamples series.flux.length sp).1
          (segmentSamples series.flux.length sp).2 st).2 with
      | none => rfl
      | some r =>
        simp only [Option.map_some']
        rw [List.map_map, List.map_map]
        rfl

/-! ## Claim C2 -/

/-- With an empty frequency array every phase accumulation hits an
out-of-range read, so the phase is NaN at every sample. -/
theorem oscPhaseJS_nil (N perPoint s : ℕ) :
    oscPhaseJS [] N perPoint s = JSNum.nan := by
  unfold oscPhaseJS
  rw [List.range_succ, List.foldl_append, List.foldl_cons, List.foldl_nil, jsRead_nil]
  rw [show jsMul (JSNum.fin (2 * Real.pi)) JSNum.nan = JSNum.nan from rfl,
    show jsDiv JSNum.nan (JSNum.fin (SAMPLE_RATE : ℝ)) = JSNum.nan from rfl,
    jsAdd_nan]

/-- With an empty frequency array every melodic sample is NaN. -/
theorem melodySampleJS_nil (amplitudes : List ℝ) (N perPoint s : ℕ) :
    melodySampleJS [] amplitudes N perPoint s = JSNum.nan := by
  unfold melodySampleJS
  rw [oscPhaseJS_nil, show jsSin JSNum.nan = JSNum.nan from rfl, jsMul_nan_left]

/-- One NaN sample poisons the peak scan. -/
theorem peakValJS_nan_mem (l : List JSNum) (h : JSNum.nan ∈ l) :
    peakValJS l = JSNum.nan := by
  unfold peakValJS
  have aux2 : ∀ l : List JSNum,
      l.foldl (fun m v => jsMax m (jsAbs v)) JSNum.nan = JSNum.nan := by
    intro l
    induction l with
    | nil => rfl
    | cons x xs ih => rw [List.foldl_cons, jsMax_nan_left, ih]
  have aux : ∀ (l : List JSNum) (a : JSNum), JSNum.nan ∈ l
      → l.foldl (fun m v => jsMax m (jsAbs v)) a = JSNum.nan := by
    intro l
    induction l with
    | nil => intro a ha; cases ha
    | cons x xs ih =>
      intro a ha
      rcases List.mem_cons.mp ha with hx | hx
      · rw [List.foldl_cons, ← hx,
          show jsAbs JSNum.nan = JSNum.nan from rfl, jsMax_nan]
        exact aux2 xs
      · rw [List.foldl_cons]
        exact ih _ hx
  exact aux l _ h

theorem frequencySeries_nil (q : Bool) : frequencySeries [] q = [] := by
  unfold frequencySeries
  simp

/-- An empty series in melody mode renders an all-NaN buffer: every
sample is NaN, the NaN peak makes `max > 0` false, normalization is
skipped, and the NaN samples remain. -/
theorem renderFluxPitchJS_nil (series : SonificationSeries)
    (amplitudes : List ℝ) (perPoint total : ℕ) (htotal : 1 ≤ total) :
    renderFluxPitchJS series [] amplitudes perPoint total
      = (List.range total).map (fun _ => JSNum.nan) := by
  simp only [renderFluxPitchJS]
  have hbuf : (List.range total).map
        (melodySampleJS [] amplitudes series.flux.length perPoint)
      = (List.range total).map (fun _ => JSNum.nan) := by
    apply List.map_congr_left
    intro s _
    exact melodySampleJS_nil amplitudes _ perPoint s
  rw [hbuf]
  have hmem : JSNum.nan ∈ (List.range total).map (fun _ : ℕ => JSNum.nan) :=
    List.mem_map.mpr ⟨0, List.mem_range.mpr htotal, rfl⟩
  rw [peakValJS_nan_mem _ hmem]
  rfl

set_option maxRecDepth 10000 in
/-- C2 fails on the code: rendering the *empty* series in melody mode
(speed 1, volume 1) produces 320 output samples, every one of them
NaN — the frequency read at data index −1 is `undefined`, NaN
propagates, `Math.max` returns NaN, `NaN > 0` is false so the
normalization divide is skipped, and `NaN · volume` is NaN — and a NaN
sample satisfies `|sample| ≤ volume + ε` for no ε (every comparison
with NaN is false, which `jsAbsLe · c = False` captures for every
bound `c`). -/
theorem gain_bound_counterexample :
    (renderSonificationJS ⟨[], none, none, none, []⟩
        ⟨SonificationMode.flux_pitch, 1, false, false, 1⟩).left.length = 320
    ∧ (renderSonificationJS ⟨[], none, none, none, []⟩
        ⟨SonificationMode.flux_pitch, 1, false, false, 1⟩).left.Forall
        (fun v => v = JSNum.nan)
    ∧ ¬ jsAbsLe JSNum.nan (clamp (1 : ℝ) 0 1) := by
  have htot : (segmentSamples 0 1).2 = 320 := by
    rw [segmentSamples_total_eq, segmentSamples_perPoint_speed1]
    decide
  have hleft : (renderSonificationJS ⟨[], none, none, none, []⟩
        ⟨SonificationMode.flux_pitch, 1, false, false, 1⟩).left
      = ((List.range (segmentSamples 0 1).2).map (fun _ => JSNum.nan)).map
          (fun v => jsMul v (JSNum.fin (clamp (1 : ℝ) 0 1))) := by
    simp only [renderSonificationJS, List.length_nil]
    rw [frequencySeries_nil,
      renderFluxPitchJS_nil _ _ _ _ (segmentSamples_total_pos 0 1)]
  refine ⟨?_, ?_, ?_⟩
  · rw [hleft]
    simp [htot]
  · rw [hleft, List.map_map, List.forall_iff_forall_mem]
    intro v hv
    obtain ⟨s, _, rfl⟩ := List.mem_map.mp hv
    rfl
  · intro hfalse
    exact hfalse

/-- C2 amended: for every RenderOptions value and every *non-empty*
numerically valid input series (and for any series in ping mode, which
performs no numeric array reads), every sample of every channel of the
rendered audio has absolute value at most the clamped volume after the
final gain stage — under the NaN-faithful semantics.  The empty series
in the melodic modes is the one exception: there every sample is NaN
(`gain_bound_counterexample`) and no bound holds. -/
theorem gain_bounds_nonempty (series : SonificationSeries)
    (opts : SonificationOptions)
    (h : series.flux ≠ [] ∨ opts.mode = SonificationMode.transit_ping) :
    (renderSonificationJS series opts).left.Forall
      (fun v => jsAbsLe v (clamp opts.volume 0 1))
    ∧ ((renderSonificationJS series opts).right.getD []).Forall
      (fun v => jsAbsLe v (clamp opts.volume 0 1)) := by
  obtain ⟨hl, hr⟩ := renderSonificationJS_fin series opts h
  have hreal := realRender_gain_bound series opts
  constructor
  · rw [hl, List.forall_iff_forall_mem]
    intro v hv
    obtain ⟨x, hx, rfl⟩ := List.mem_map.mp hv
    exact (List.forall_iff_forall_mem.mp hreal.1) x hx
  · rw [hr]
    cases hrt : (renderSonification series opts).right with
    | none => simp
    | some r =>
      simp only [Option.map_some', Option.getD_some]
      rw [List.forall_iff_forall_mem]
      intro v hv
      obtain ⟨x, hx, rfl⟩ := List.mem_map.mp hv
      have h2 := hreal.2
      rw [hrt] at h2
      simp only [Option.getD_some] at h2
      exact (List.forall_iff_forall_mem.mp h2) x hx

/-- Witness for the amended C2 at the one-point series `flux = [1]` in
melody mode. -/
theorem gain_bounds_nonempty_witness :
    (([(1 : ℝ)] : List ℝ) ≠ []
      ∨ SonificationMode.flux_pitch = SonificationMode.transit_ping)
    ∧ (renderSonificationJS ⟨[1], none, none, none, []⟩
        ⟨SonificationMode.flux_pitch, 1, false, false, 1⟩).left.Forall
        (fun v => jsAbsLe v (clamp (1 : ℝ) 0 1)) := by
  refine ⟨Or.inl (by simp), ?_⟩
  exact (gain_bounds_nonempty ⟨[1], none, none, none, []⟩
    ⟨SonificationMode.flux_pitch, 1, false, false, 1⟩ (Or.inl (by simp))).1

end Sonification
